import Mathlib

/-!
Verification development for the ParkourGame encrypted score ledger.

The contract (`ParkourGame.sol`) is shallowly embedded: an `euint32`
ciphertext is modelled as a pair of an opaque handle identifier and its
plaintext value; the FHE co-processor primitives `FHE.gt` and `FHE.select`
compute on the plaintext component while allocating fresh handles, exactly
mirroring the homomorphic semantics.  Contract storage becomes an explicit
`ContractState` record, `require` failures become `Except.error`, and the
EVM's revert-on-failure semantics are captured by `applyTx`, which leaves
the state unchanged on error.

The frontend hook (`useParkourGame.tsx`) is embedded as pure functions over
explicit inputs: the staleness snapshot becomes a `Ctx` value captured at
request start and re-evaluated against the current `Ctx` at each checkpoint,
and the decryption oracle becomes an explicit function argument whose use is
recorded in the result.
-/

namespace Parkour

/-- A principal (an account address). -/
abbrev Principal := Nat

/-- Shallow embedding of an `euint32` ciphertext: an opaque handle identifier
together with the plaintext value it encrypts.  Decryption of a ciphertext
returns `val`; the ledger itself only ever passes ciphertexts to the FHE
primitives below. -/
structure Ciph where
  id : Nat
  val : Nat
deriving DecidableEq, Repr

/-- The `PlayerScore` struct of the contract. -/
structure PlayerScore where
  encryptedScore : Ciph
  timestamp : Nat
  exists_ : Bool
deriving DecidableEq, Repr

/-- Default (Solidity zero-initialised) `PlayerScore`: zero handle, zero
timestamp, `exists = false`. -/
def PlayerScore.default : PlayerScore := ⟨⟨0, 0⟩, 0, false⟩

/-- The `Character` struct of the contract. -/
structure Character where
  tokenId : Nat
  owner : Principal
  exists_ : Bool
deriving DecidableEq, Repr

/-- Default (zero-initialised) `Character`. -/
def Character.default : Character := ⟨0, 0, false⟩

/-- Who an FHE access-control grant is for: the contract itself
(`FHE.allowThis`) or a user principal (`FHE.allow`). -/
inductive Grantee where
  | contract : Grantee
  | user : Principal → Grantee
deriving DecidableEq, Repr

/-- Semantics of `FHE.gt` on `euint32`: an encrypted strict comparison of the
plaintext values. -/
def FHE.gt (a b : Ciph) : Bool := decide (a.val > b.val)

/-- Semantics of `FHE.select`: produce a ciphertext, under a fresh handle
`freshId`, whose plaintext is the selected branch. -/
def FHE.select (freshId : Nat) (c : Bool) (a b : Ciph) : Ciph :=
  ⟨freshId, if c then a.val else b.val⟩

/-- Full storage of the `ParkourGame` contract, plus the handle allocator
`nextId` used to model the co-processor's fresh-handle discipline (real
handles are nonzero, so allocation starts at 1; the all-zero handle is the
"never submitted" sentinel). -/
structure ContractState where
  tokenCounter : Nat
  characters : Nat → Character
  ownerTokens : Principal → List Nat
  playerScores : Principal → PlayerScore
  players : List Principal
  maxEncryptedScore : Ciph
  topPlayer : Principal
  hasTopPlayer : Bool
  grants : List (Nat × Grantee)
  nextId : Nat

/-- Freshly deployed contract: all mappings zero-initialised. -/
def ContractState.init : ContractState where
  tokenCounter := 0
  characters := fun _ => Character.default
  ownerTokens := fun _ => []
  playerScores := fun _ => PlayerScore.default
  players := []
  maxEncryptedScore := ⟨0, 0⟩
  topPlayer := 0
  hasTopPlayer := false
  grants := []
  nextId := 1

/-- The contract's `mintCharacter`: increments the token counter, records the
character and appends the token to the caller's `ownerTokens`. -/
def mintCharacter (s : ContractState) (sender : Principal) : ContractState :=
  let tokenId := s.tokenCounter + 1
  { s with
    tokenCounter := tokenId
    characters := fun t => if t = tokenId then ⟨tokenId, sender, true⟩ else s.characters t
    ownerTokens := fun p => if p = sender then s.ownerTokens p ++ [tokenId] else s.ownerTokens p }

/-- Errors raised by the ledger: the `require` guard of `submitScore`
("Player must own a character NFT"), the spec's `NotEligible`. -/
inductive SubmitError where
  | notEligible
deriving DecidableEq, Repr

/-- Success path of `submitScore` (everything after the eligibility
`require`).  `FHE.fromExternal` allocates a fresh handle for the submitted
ciphertext; each `FHE.select` allocates a further fresh handle. -/
def submitAux (s : ContractState) (sender : Principal) (score : Nat)
    (blockTimestamp : Nat) : ContractState :=
  let encryptedEuint32 : Ciph := ⟨s.nextId, score % 2 ^ 32⟩
  let s2 :=
    if (s.playerScores sender).exists_ = false then
      -- First submission by this sender: push to `_players`, create the record.
      let s1 := { s with
        players := s.players ++ [sender]
        playerScores := fun p =>
          if p = sender then ⟨encryptedEuint32, blockTimestamp, true⟩ else s.playerScores p
        nextId := s.nextId + 1 }
      if s.hasTopPlayer = false then
        { s1 with
          maxEncryptedScore := encryptedEuint32
          topPlayer := sender
          hasTopPlayer := true }
      else
        let isNewHigher := FHE.gt encryptedEuint32 s.maxEncryptedScore
        { s1 with
          maxEncryptedScore :=
            FHE.select s1.nextId isNewHigher encryptedEuint32 s.maxEncryptedScore
          nextId := s1.nextId + 1 }
    else
      -- Repeat submission: conditionally replace the stored ciphertext,
      -- update the running maximum, always refresh the timestamp.
      let currentScore := (s.playerScores sender).encryptedScore
      let isNewHigher := FHE.gt encryptedEuint32 currentScore
      let newRecordScore := FHE.select (s.nextId + 1) isNewHigher encryptedEuint32 currentScore
      let isNewMax := FHE.gt encryptedEuint32 s.maxEncryptedScore
      let newMax := FHE.select (s.nextId + 2) isNewMax encryptedEuint32 s.maxEncryptedScore
      { s with
        playerScores := fun p =>
          if p = sender then ⟨newRecordScore, blockTimestamp, true⟩ else s.playerScores p
        maxEncryptedScore := newMax
        nextId := s.nextId + 3 }
  -- ACL grants on the resulting ciphertexts.
  let recordCt := (s2.playerScores sender).encryptedScore
  { s2 with
    grants := s2.grants ++
      [(recordCt.id, Grantee.contract), (recordCt.id, Grantee.user sender),
       (s2.maxEncryptedScore.id, Grantee.contract)] }

/-- The contract's `submitScore`: reverts with `notEligible` when the sender
owns no character token, otherwise runs the success path. -/
def submitScore (s : ContractState) (sender : Principal) (score : Nat)
    (blockTimestamp : Nat) : Except SubmitError ContractState :=
  if (s.ownerTokens sender).length = 0 then
    Except.error SubmitError.notEligible
  else
    Except.ok (submitAux s sender score blockTimestamp)

/-- A state-mutating transaction against the contract. -/
inductive Tx where
  | mint (sender : Principal)
  | submit (sender : Principal) (score : Nat) (blockTimestamp : Nat)

/-- EVM transaction semantics: a reverted call leaves the state unchanged. -/
def applyTx (s : ContractState) : Tx → ContractState
  | Tx.mint p => mintCharacter s p
  | Tx.submit p v ts =>
    match submitScore s p v ts with
    | Except.ok s2 => s2
    | Except.error _ => s

/-- Run a sequence of transactions from the freshly deployed contract. -/
def run (txs : List Tx) : ContractState :=
  txs.foldl applyTx ContractState.init

/-- The contract's `getPlayerScore` view. -/
def getPlayerScore (s : ContractState) (player : Principal) : Ciph × Nat × Bool :=
  ((s.playerScores player).encryptedScore, (s.playerScores player).timestamp,
   (s.playerScores player).exists_)

/-- The contract's `getTopPlayer` view; `bytes32(0)` is modelled as the
handle value `0`. -/
def getTopPlayer (s : ContractState) : Principal × Nat :=
  if s.hasTopPlayer = false ∨ s.players.length = 0 then (0, 0)
  else (s.topPlayer, 0)

/-- The contract's `getLeaderboard` view: the two-pass count-then-fill loop
produces exactly the `exists` players in `_players` order, with their
timestamps. -/
def getLeaderboard (s : ContractState) : List Principal × List Nat :=
  let valid := s.players.filter fun p => (s.playerScores p).exists_
  (valid, valid.map fun p => (s.playerScores p).timestamp)

/-- The contract's `getLeaderboardRange` view: the loop reads
`_players[startIndex + i]` for `i < endIndex - startIndex`, which is the
`drop`/`take` slice of `_players`, with each player's stored score record. -/
def getLeaderboardRange (s : ContractState) (startIndex count : Nat) :
    List Principal × List Ciph × List Nat :=
  let playerCount := s.players.length
  if playerCount ≤ startIndex then ([], [], [])
  else
    let endIndex := if playerCount < startIndex + count then playerCount else startIndex + count
    let sel := (s.players.drop startIndex).take (endIndex - startIndex)
    (sel, sel.map fun p => (s.playerScores p).encryptedScore,
     sel.map fun p => (s.playerScores p).timestamp)

/-- Fold a sequence of score submissions by a single principal. -/
def runSubs (s : ContractState) (p : Principal) (subs : List (Nat × Nat)) : ContractState :=
  subs.foldl (fun t x => applyTx t (Tx.submit p x.1 x.2)) s

/-- Fold a sequence of score submissions by arbitrary principals, each given
as `(sender, score, blockTimestamp)`. -/
def runMulti (s : ContractState) (subs : List (Principal × Nat × Nat)) : ContractState :=
  subs.foldl (fun t x => applyTx t (Tx.submit x.1 x.2.1 x.2.2)) s

/-- A small reachable ledger state with three scored players, used as a
concrete instance for the projection theorems. -/
def sampleState : ContractState :=
  run [Tx.mint 0, Tx.submit 0 5 10, Tx.mint 1, Tx.submit 1 7 20, Tx.mint 2, Tx.submit 2 3 30]

/-- Invariant I4: every ciphertext reachable from a live `ScoreRecord` has
grants for the co-processor (the contract) and for the record's owner, and
the `MaxState` ciphertext, once set, has a grant for the co-processor. -/
def I4inv (s : ContractState) : Prop :=
  (∀ p : Principal, (s.playerScores p).exists_ = true →
    ((s.playerScores p).encryptedScore.id, Grantee.contract) ∈ s.grants ∧
    ((s.playerScores p).encryptedScore.id, Grantee.user p) ∈ s.grants) ∧
  (s.hasTopPlayer = true → (s.maxEncryptedScore.id, Grantee.contract) ∈ s.grants)

/-- Snapshot of the frontend execution context captured at request start:
the configured contract address, the chain id, and the signing identity. -/
structure Ctx where
  contractAddress : Nat
  chainId : Nat
  signer : Nat
deriving DecidableEq, Repr

/-- The hook's staleness closure: the snapshot is stale when the configured
contract address, the chain, or the signing identity differs from the
current context. -/
def isStale (snapshot current : Ctx) : Bool :=
  decide (snapshot.contractAddress ≠ current.contractAddress) ||
  decide (snapshot.chainId ≠ current.chainId) ||
  decide (snapshot.signer ≠ current.signer)

/-- Observable result of one `decryptScore` run: whether the decryption
oracle (`instance.userDecrypt`) was invoked, the `playerScore` state update
if any, and the final user-facing message. -/
structure DecryptOutcome where
  oracleCalled : Bool
  playerScore : Option Nat
  message : String
deriving DecidableEq, Repr

/-- The body of the hook's `decryptScore` after the fetched record is in
hand: `handle` and `recExists` come from `getPlayerScore`, `sigOk` is
whether `FhevmDecryptionSignature.loadOrSign` produced a session, and the
staleness snapshot is re-evaluated against the current context right before
the oracle call (`ctxAtSigCheck`) and right after it (`ctxAfterOracle`).
The oracle is an explicit function; its use is recorded in the result. -/
def decryptScoreRun (handle : Nat) (recExists : Bool) (sigOk : Bool)
    (snapshot ctxAtSigCheck ctxAfterOracle : Ctx) (oracle : Nat → Nat) : DecryptOutcome :=
  if recExists = false then
    ⟨false, none, "No score found for this player"⟩
  else if handle = 0 then
    -- All-zero sentinel handle: report plaintext 0, no oracle call.
    ⟨false, some 0, "Score: 0"⟩
  else if sigOk = false then
    ⟨false, none, "Unable to build FHEVM decryption signature"⟩
  else if isStale snapshot ctxAtSigCheck then
    ⟨false, none, "Ignore decryption"⟩
  else
    let decryptedValue := oracle handle
    if isStale snapshot ctxAfterOracle then
      ⟨true, none, "Ignore decryption"⟩
    else
      ⟨true, some decryptedValue, "Your score"⟩

/-- Outcome of a hook call under the re-entrancy guard: `skipped` is the
silent early `return` taken while a previous call is still outstanding. -/
inductive HookOutcome (α : Type) where
  | skipped : HookOutcome α
  | ran : α → HookOutcome α
deriving DecidableEq

/-- The hook's `decryptScore` entry: returns immediately while
`isDecryptingRef` is set or a prerequisite is missing, otherwise runs the
pipeline. -/
def decryptScoreHook (isDecryptingRef : Bool) (hasAddress hasInstance hasSigner : Bool)
    (handle : Nat) (recExists sigOk : Bool) (snapshot c1 c2 : Ctx) (oracle : Nat → Nat) :
    HookOutcome DecryptOutcome :=
  if isDecryptingRef || !hasAddress || !hasInstance || !hasSigner then
    HookOutcome.skipped
  else
    HookOutcome.ran (decryptScoreRun handle recExists sigOk snapshot c1 c2 oracle)

/-- Observable result of one `submitScore` hook run: whether a transaction
was sent and the final message. -/
structure SubmitOutcome where
  txSent : Bool
  message : String
deriving DecidableEq, Repr

/-- The hook's `submitScore` entry: returns immediately while
`isSubmittingRef` is set or a prerequisite is missing; otherwise requires a
character, re-checks staleness after encrypting, and sends the transaction. -/
def submitScoreHook (isSubmittingRef : Bool)
    (hasAddress hasInstance hasSigner hasCharacter : Bool)
    (snapshot ctxAfterEncrypt : Ctx) : HookOutcome SubmitOutcome :=
  if isSubmittingRef || !hasAddress || !hasInstance || !hasSigner then
    HookOutcome.skipped
  else if hasCharacter = false then
    HookOutcome.ran ⟨false, "You need to mint a character first"⟩
  else if isStale snapshot ctxAfterEncrypt then
    HookOutcome.ran ⟨false, "Ignore score submission"⟩
  else
    HookOutcome.ran ⟨true, "Score submitted successfully"⟩

/-- A leaderboard entry as the hook builds it before ranking: address,
encrypted-score handle (never decrypted) and submission timestamp. -/
structure LeaderboardEntry where
  address : Principal
  encryptedScoreHandle : Nat
  timestamp : Nat
deriving DecidableEq, Repr

/-- A ranked leaderboard entry as stored in the hook's state. -/
structure RankedEntry where
  rank : Nat
  address : Principal
  encryptedScoreHandle : Nat
  timestamp : Nat
deriving DecidableEq, Repr

/-- Stable insertion for the timestamp-descending order: the entry goes in
front of the first element whose timestamp does not exceed its own, so
entries with equal timestamps keep their original relative order. -/
def insertByTsDesc (e : LeaderboardEntry) : List LeaderboardEntry → List LeaderboardEntry
  | [] => [e]
  | f :: rest =>
    if f.timestamp ≤ e.timestamp then e :: f :: rest
    else f :: insertByTsDesc e rest

/-- Stable sort by timestamp descending.  ECMAScript `Array.prototype.sort`
is specified stable, and the hook's comparator orders strictly by
`timestamp` descending and returns `0` on ties, so the sorted array is the
unique stable timestamp-descending rearrangement — which this insertion
sort computes. -/
def sortByTsDesc : List LeaderboardEntry → List LeaderboardEntry
  | [] => []
  | e :: rest => insertByTsDesc e (sortByTsDesc rest)

/-- The hook's final `map` attaching 1-based ranks in sorted order. -/
def addRanks : Nat → List LeaderboardEntry → List RankedEntry
  | _, [] => []
  | n, e :: rest => ⟨n, e.address, e.encryptedScoreHandle, e.timestamp⟩ :: addRanks (n + 1) rest

/-- The hook's `fetchLeaderboard` pipeline over a ledger state: read the
players from `getLeaderboard`, fetch `getPlayerScore` for each, keep the
records with `exists`, drop all-zero handles, sort stably by timestamp
descending, and attach ranks. -/
def fetchLeaderboard (s : ContractState) : List RankedEntry :=
  let players := (getLeaderboard s).1
  let validScores := players.filter fun p => (getPlayerScore s p).2.2
  let entries := validScores.filterMap fun p =>
    if (getPlayerScore s p).1.id = 0 then none
    else some ⟨p, (getPlayerScore s p).1.id, (getPlayerScore s p).2.1⟩
  addRanks 1 (sortByTsDesc entries)

/-- Stable insertion on `(principal, submittedAt)` pairs, for the spec-side
projection. -/
def insertPairByTsDesc (e : Principal × Nat) : List (Principal × Nat) → List (Principal × Nat)
  | [] => [e]
  | f :: rest =>
    if f.2 ≤ e.2 then e :: f :: rest
    else f :: insertPairByTsDesc e rest

/-- Stable sort on pairs by timestamp descending, for the spec-side
projection. -/
def sortPairsByTsDesc : List (Principal × Nat) → List (Principal × Nat)
  | [] => []
  | e :: rest => insertPairByTsDesc e (sortPairsByTsDesc rest)

/-- Spec-side leaderboard projection, written from the spec's words for the
refinement comparison: keep the ScoreRecords with `exists = true`, order by
`submittedAt` descending with ties in stable input order; the scores are
never consulted. -/
def projectSpec (s : ContractState) : List (Principal × Nat) :=
  sortPairsByTsDesc ((s.players.filter fun p => (s.playerScores p).exists_).map
    fun p => (p, (s.playerScores p).timestamp))

theorem ite_gt_eq_max (a b : Nat) : (if b < a then a else b) = Nat.max a b := by
  rcases Nat.lt_or_ge b a with h | h
  · simp [h, Nat.max_eq_left (Nat.le_of_lt h)]
  · simp [Nat.not_lt.mpr h, Nat.max_eq_right h]

theorem submitAux_ownerTokens (s : ContractState) (sender : Principal) (v ts : Nat) :
    (submitAux s sender v ts).ownerTokens = s.ownerTokens := by
  simp only [submitAux]
  split
  · split <;> rfl
  · rfl

theorem submitAux_playerScores_ne (s : ContractState) (sender q : Principal) (v ts : Nat)
    (h : q ≠ sender) :
    (submitAux s sender v ts).playerScores q = s.playerScores q := by
  simp only [submitAux]
  split
  · split <;> simp [h]
  · simp [h]

theorem submitAux_playerScores_first (s : ContractState) (sender : Principal) (v ts : Nat)
    (h : (s.playerScores sender).exists_ = false) :
    (submitAux s sender v ts).playerScores sender = ⟨⟨s.nextId, v % 2 ^ 32⟩, ts, true⟩ := by
  simp only [submitAux, h]
  split
  · split <;> simp
  · next hc => simp at hc

theorem submitAux_playerScores_repeat (s : ContractState) (sender : Principal) (v ts : Nat)
    (h : (s.playerScores sender).exists_ = true) :
    (submitAux s sender v ts).playerScores sender =
      ⟨⟨s.nextId + 1, Nat.max (v % 2 ^ 32) (s.playerScores sender).encryptedScore.val⟩,
       ts, true⟩ := by
  simp only [submitAux, h]
  split
  · next hc => simp at hc
  · simp [FHE.gt, FHE.select, ite_gt_eq_max]

theorem submitAux_max_val (s : ContractState) (sender : Principal) (v ts : Nat)
    (h : s.hasTopPlayer = true) :
    (submitAux s sender v ts).maxEncryptedScore.val
      = Nat.max (v % 2 ^ 32) s.maxEncryptedScore.val := by
  simp only [submitAux, h]
  split
  · split
    · next hc => simp at hc
    · simp [FHE.gt, FHE.select, ite_gt_eq_max]
  · simp [FHE.gt, FHE.select, ite_gt_eq_max]

theorem submitAux_hasTopPlayer (s : ContractState) (sender : Principal) (v ts : Nat)
    (h : s.hasTopPlayer = true) :
    (submitAux s sender v ts).hasTopPlayer = true := by
  simp only [submitAux, h]
  split
  · split
    · next hc => simp at hc
    · simp [h]
  · simp [h]

theorem submitAux_topPlayer (s : ContractState) (sender : Principal) (v ts : Nat)
    (h : s.hasTopPlayer = true) :
    (submitAux s sender v ts).topPlayer = s.topPlayer := by
  simp only [submitAux, h]
  split
  · split
    · next hc => simp at hc
    · simp
  · simp

theorem submitAux_first_overall (s : ContractState) (sender : Principal) (v ts : Nat)
    (hTop : s.hasTopPlayer = false) (h : (s.playerScores sender).exists_ = false) :
    (submitAux s sender v ts).maxEncryptedScore = ⟨s.nextId, v % 2 ^ 32⟩ ∧
    (submitAux s sender v ts).topPlayer = sender ∧
    (submitAux s sender v ts).hasTopPlayer = true := by
  simp [submitAux, h, hTop]

theorem submitAux_players (s : ContractState) (sender : Principal) (v ts : Nat) :
    (submitAux s sender v ts).players = s.players ++ [sender] ∨
    (submitAux s sender v ts).players = s.players := by
  simp only [submitAux]
  split
  · split <;> exact Or.inl rfl
  · exact Or.inr rfl

theorem submitAux_players_first (s : ContractState) (sender : Principal) (v ts : Nat)
    (h : (s.playerScores sender).exists_ = false) :
    (submitAux s sender v ts).players = s.players ++ [sender] := by
  simp only [submitAux, h]
  split
  · split <;> rfl
  · next hc => simp at hc

theorem applyTx_submit_eligible (s : ContractState) (p : Principal) (v ts : Nat)
    (h : s.ownerTokens p ≠ []) :
    applyTx s (Tx.submit p v ts) = submitAux s p v ts := by
  simp [applyTx, submitScore, List.length_eq_zero, h]

theorem runSubs_cons (s : ContractState) (p : Principal) (x : Nat × Nat)
    (rest : List (Nat × Nat)) :
    runSubs s p (x :: rest) = runSubs (applyTx s (Tx.submit p x.1 x.2)) p rest := rfl

/-- Folding further submissions over a state where the principal already has
a score record keeps the record, folds `Nat.max` over the incoming plaintext
values, and ends at the timestamp of the last submission. -/
theorem runSubs_existing (p : Principal) (subs : List (Nat × Nat)) :
    ∀ s : ContractState, s.ownerTokens p ≠ [] → (s.playerScores p).exists_ = true →
    ((runSubs s p subs).playerScores p).exists_ = true ∧
    ((runSubs s p subs).playerScores p).encryptedScore.val
      = (subs.map fun x => x.1 % 2 ^ 32).foldl Nat.max (s.playerScores p).encryptedScore.val ∧
    ((runSubs s p subs).playerScores p).timestamp
      = (subs.map Prod.snd).getLastD (s.playerScores p).timestamp := by
  induction subs with
  | nil => intro s _ hex; simpa [runSubs] using hex
  | cons x rest ih =>
    intro s helig hex
    rw [runSubs_cons, applyTx_submit_eligible s p x.1 x.2 helig]
    have helig2 : (submitAux s p x.1 x.2).ownerTokens p ≠ [] := by
      rw [submitAux_ownerTokens]; exact helig
    have hrec := submitAux_playerScores_repeat s p x.1 x.2 hex
    have hex2 : ((submitAux s p x.1 x.2).playerScores p).exists_ = true := by rw [hrec]
    obtain ⟨e1, e2, e3⟩ := ih (submitAux s p x.1 x.2) helig2 hex2
    refine ⟨e1, ?_, ?_⟩
    · rw [e2, hrec]
      simp [Nat.max_comm]
    · rw [e3, hrec]
      simp only [List.map_cons, List.getLastD_cons]

/-- C1: after any nonempty sequence of submissions by a single eligible
principal, the stored ciphertext decrypts to the maximum plaintext value
ever submitted by that principal, and the stored timestamp is the timestamp
of the most recent submission, whether or not it raised the score. -/
theorem single_principal_max_and_latest_timestamp
    (s : ContractState) (p : Principal) (subs : List (Nat × Nat))
    (helig : s.ownerTokens p ≠ [])
    (hnew : (s.playerScores p).exists_ = false)
    (hne : subs ≠ []) :
    ((runSubs s p subs).playerScores p).exists_ = true ∧
    ((runSubs s p subs).playerScores p).encryptedScore.val
      = (subs.map fun x => x.1 % 2 ^ 32).foldl Nat.max 0 ∧
    ((runSubs s p subs).playerScores p).timestamp = (subs.map Prod.snd).getLastD 0 := by
  match subs, hne with
  | x :: rest, _ =>
    rw [runSubs_cons, applyTx_submit_eligible s p x.1 x.2 helig]
    have helig2 : (submitAux s p x.1 x.2).ownerTokens p ≠ [] := by
      rw [submitAux_ownerTokens]; exact helig
    have hrec := submitAux_playerScores_first s p x.1 x.2 hnew
    have hex2 : ((submitAux s p x.1 x.2).playerScores p).exists_ = true := by rw [hrec]
    obtain ⟨e1, e2, e3⟩ := runSubs_existing p rest (submitAux s p x.1 x.2) helig2 hex2
    refine ⟨e1, ?_, ?_⟩
    · rw [e2, hrec]
      simp
    · rw [e3, hrec]
      simp only [List.map_cons, List.getLastD_cons]

/-- Witness for C1: principal 0 submits 5 then 3; the record decrypts to 5
while the timestamp moves to the second submission. -/
theorem single_principal_max_and_latest_timestamp_witness :
    ((runSubs (mintCharacter ContractState.init 0) 0 [(5, 1), (3, 2)]).playerScores 0).exists_
        = true ∧
    ((runSubs (mintCharacter ContractState.init 0) 0
        [(5, 1), (3, 2)]).playerScores 0).encryptedScore.val
      = ([(5, 1), (3, 2)].map fun x : Nat × Nat => x.1 % 2 ^ 32).foldl Nat.max 0 ∧
    ((runSubs (mintCharacter ContractState.init 0) 0 [(5, 1), (3, 2)]).playerScores 0).timestamp
      = ([(5, 1), (3, 2)].map Prod.snd).getLastD 0 :=
  single_principal_max_and_latest_timestamp (mintCharacter ContractState.init 0) 0
    [(5, 1), (3, 2)] (by decide) (by decide) (by decide)

theorem runMulti_cons (s : ContractState) (x : Principal × Nat × Nat)
    (rest : List (Principal × Nat × Nat)) :
    runMulti s (x :: rest) = runMulti (applyTx s (Tx.submit x.1 x.2.1 x.2.2)) rest := rfl

/-- Once a top player exists, folding further submissions keeps a top player,
never rewrites `_topPlayer`, preserves `ownerTokens`, keeps the players list
nonempty, and folds `Nat.max` into the running maximum. -/
theorem runMulti_started (subs : List (Principal × Nat × Nat)) :
    ∀ s : ContractState, s.hasTopPlayer = true →
    (∀ x ∈ subs, s.ownerTokens x.1 ≠ []) →
    (runMulti s subs).hasTopPlayer = true ∧
    (runMulti s subs).topPlayer = s.topPlayer ∧
    (runMulti s subs).ownerTokens = s.ownerTokens ∧
    (s.players ≠ [] → (runMulti s subs).players ≠ []) ∧
    (runMulti s subs).maxEncryptedScore.val
      = (subs.map fun x => x.2.1 % 2 ^ 32).foldl Nat.max s.maxEncryptedScore.val := by
  induction subs with
  | nil => intro s hTop _; exact ⟨hTop, rfl, rfl, fun h => h, rfl⟩
  | cons x rest ih =>
    intro s hTop helig
    rw [runMulti_cons,
      applyTx_submit_eligible s x.1 x.2.1 x.2.2 (helig x (List.mem_cons_self x rest))]
    have hTop2 := submitAux_hasTopPlayer s x.1 x.2.1 x.2.2 hTop
    have helig2 : ∀ y ∈ rest, (submitAux s x.1 x.2.1 x.2.2).ownerTokens y.1 ≠ [] := by
      intro y hy
      rw [submitAux_ownerTokens]
      exact helig y (List.mem_cons_of_mem x hy)
    obtain ⟨e1, e2, e3, e4, e5⟩ := ih (submitAux s x.1 x.2.1 x.2.2) hTop2 helig2
    refine ⟨e1, ?_, ?_, ?_, ?_⟩
    · rw [e2, submitAux_topPlayer s x.1 x.2.1 x.2.2 hTop]
    · rw [e3, submitAux_ownerTokens]
    · intro hne
      refine e4 ?_
      rcases submitAux_players s x.1 x.2.1 x.2.2 with hp | hp <;> rw [hp] <;> simp [hne]
    · rw [e5, submitAux_max_val s x.1 x.2.1 x.2.2 hTop]
      simp [Nat.max_comm]

theorem foldl_nat_max_perm {l l2 : List Nat} (h : l.Perm l2) :
    ∀ a : Nat, l.foldl Nat.max a = l2.foldl Nat.max a := by
  induction h with
  | nil => intro a; rfl
  | cons x _ ih => intro a; simpa using ih (Nat.max a x)
  | swap x y l =>
    intro a
    simp only [List.foldl_cons]
    have h3 : Nat.max (Nat.max a y) x = Nat.max (Nat.max a x) y := by ac_rfl
    rw [h3]
  | trans _ _ ih1 ih2 => intro a; rw [ih1 a, ih2 a]

/-- C2: from a fresh ledger, after any sequence of submissions by eligible
principals, the `MaxState` ciphertext decrypts to the global maximum of all
submitted plaintext values, and the result is the same for every
permutation of the submission sequence. -/
theorem global_max_order_independent
    (s : ContractState) (subs : List (Principal × Nat × Nat))
    (hTop : s.hasTopPlayer = false)
    (hclean : ∀ q, (s.playerScores q).exists_ = false)
    (helig : ∀ x ∈ subs, s.ownerTokens x.1 ≠ []) :
    (subs ≠ [] → (runMulti s subs).maxEncryptedScore.val
      = (subs.map fun x => x.2.1 % 2 ^ 32).foldl Nat.max 0) ∧
    (∀ subs2, subs.Perm subs2 →
      (runMulti s subs2).maxEncryptedScore.val = (runMulti s subs).maxEncryptedScore.val) := by
  have main : ∀ t : List (Principal × Nat × Nat), (∀ x ∈ t, s.ownerTokens x.1 ≠ []) →
      t ≠ [] → (runMulti s t).maxEncryptedScore.val
        = (t.map fun x => x.2.1 % 2 ^ 32).foldl Nat.max 0 := by
    intro t helig2 hne
    match t, hne with
    | x :: rest, _ =>
      rw [runMulti_cons,
        applyTx_submit_eligible s x.1 x.2.1 x.2.2 (helig2 x (List.mem_cons_self x rest))]
      have hfirst :=
        submitAux_first_overall s x.1 x.2.1 x.2.2 hTop (hclean x.1)
      have hTop2 := hfirst.2.2
      have helig3 : ∀ y ∈ rest, (submitAux s x.1 x.2.1 x.2.2).ownerTokens y.1 ≠ [] := by
        intro y hy
        rw [submitAux_ownerTokens]
        exact helig2 y (List.mem_cons_of_mem x hy)
      obtain ⟨-, -, -, -, e5⟩ := runMulti_started rest (submitAux s x.1 x.2.1 x.2.2) hTop2 helig3
      rw [e5, hfirst.1]
      simp
  refine ⟨main subs helig, ?_⟩
  intro subs2 hperm
  rcases Decidable.em (subs = []) with h | h
  · have h2 : subs2 = [] := List.Perm.eq_nil (hperm.symm.trans (by rw [h]))
    rw [h, h2]
  · have h2 : subs2 ≠ [] := by
      intro hc
      exact h (List.Perm.eq_nil (hperm.trans (by rw [hc])))
    have helig4 : ∀ x ∈ subs2, s.ownerTokens x.1 ≠ [] := fun x hx =>
      helig x (hperm.mem_iff.mpr hx)
    rw [main subs helig h, main subs2 helig4 h2]
    exact (foldl_nat_max_perm (hperm.map fun x => x.2.1 % 2 ^ 32) 0).symm

/-- Witness for C2: principals 0 and 1 submit 5 and 9; the max decrypts to 9
in both submission orders. -/
theorem global_max_order_independent_witness :
    (([((0 : Principal), (5 : Nat), (1 : Nat)), (1, 9, 2)] : List (Principal × Nat × Nat)) ≠ [] →
      (runMulti (mintCharacter (mintCharacter ContractState.init 0) 1)
          [(0, 5, 1), (1, 9, 2)]).maxEncryptedScore.val
        = (([((0 : Principal), (5 : Nat), (1 : Nat)), (1, 9, 2)] :
            List (Principal × Nat × Nat)).map fun x => x.2.1 % 2 ^ 32).foldl Nat.max 0) ∧
    (∀ subs2, ([((0 : Principal), (5 : Nat), (1 : Nat)), (1, 9, 2)] :
        List (Principal × Nat × Nat)).Perm subs2 →
      (runMulti (mintCharacter (mintCharacter ContractState.init 0) 1) subs2).maxEncryptedScore.val
        = (runMulti (mintCharacter (mintCharacter ContractState.init 0) 1)
            [(0, 5, 1), (1, 9, 2)]).maxEncryptedScore.val) :=
  global_max_order_independent (mintCharacter (mintCharacter ContractState.init 0) 1)
    [(0, 5, 1), (1, 9, 2)] (by decide) (fun q => rfl) (by decide)

/-- C10: `getTopPlayer` returns `(address(0), bytes32(0))` while nobody has
submitted; after any nonempty sequence of submissions by eligible
principals it returns the FIRST principal that ever submitted — later
submissions never reassign `_topPlayer`, whatever their values — and the
returned score handle is always `bytes32(0)`, never the real max handle. -/
theorem getTopPlayer_first_submitter_and_zero_handle
    (s : ContractState) (subs : List (Principal × Nat × Nat))
    (hTop : s.hasTopPlayer = false)
    (hclean : ∀ q, (s.playerScores q).exists_ = false)
    (helig : ∀ x ∈ subs, s.ownerTokens x.1 ≠ []) :
    getTopPlayer s = (0, 0) ∧
    (∀ t : ContractState, (getTopPlayer t).2 = 0) ∧
    (∀ x rest, subs = x :: rest → getTopPlayer (runMulti s subs) = (x.1, 0)) := by
  refine ⟨?_, ?_, ?_⟩
  · simp [getTopPlayer, hTop]
  · intro t
    simp only [getTopPlayer]
    split <;> rfl
  · intro x rest hsubs
    subst hsubs
    rw [runMulti_cons,
      applyTx_submit_eligible s x.1 x.2.1 x.2.2 (helig x (List.mem_cons_self x rest))]
    have hfirst := submitAux_first_overall s x.1 x.2.1 x.2.2 hTop (hclean x.1)
    have helig2 : ∀ y ∈ rest, (submitAux s x.1 x.2.1 x.2.2).ownerTokens y.1 ≠ [] := by
      intro y hy
      rw [submitAux_ownerTokens]
      exact helig y (List.mem_cons_of_mem x hy)
    obtain ⟨e1, e2, -, e4, -⟩ := runMulti_started rest (submitAux s x.1 x.2.1 x.2.2)
      hfirst.2.2 helig2
    have hplayers : (submitAux s x.1 x.2.1 x.2.2).players ≠ [] := by
      rw [submitAux_players_first s x.1 x.2.1 x.2.2 (hclean x.1)]
      simp
    have hne2 := e4 hplayers
    have hlen : (runMulti (submitAux s x.1 x.2.1 x.2.2) rest).players.length ≠ 0 := by
      simpa [List.length_eq_zero] using hne2
    simp [getTopPlayer, e1, e2, hfirst.2.1, hlen]

/-- Witness for C10: principal 4 submits first with a low score, principal 7
later with a higher one; `getTopPlayer` still answers principal 4, paired
with the zero handle. -/
theorem getTopPlayer_first_submitter_and_zero_handle_witness :
    getTopPlayer (mintCharacter (mintCharacter ContractState.init 4) 7) = (0, 0) ∧
    getTopPlayer (runMulti (mintCharacter (mintCharacter ContractState.init 4) 7)
      [(4, 10, 1), (7, 99, 2)]) = (4, 0) := by
  have h := getTopPlayer_first_submitter_and_zero_handle
    (mintCharacter (mintCharacter ContractState.init 4) 7)
    [(4, 10, 1), (7, 99, 2)] (by decide) (fun q => rfl) (by decide)
  exact ⟨h.1, h.2.2 (4, 10, 1) [(7, 99, 2)] rfl⟩

/-- C6 (amended): for any ledger state whose listed players all have score
records (true of every reachable state), `getLeaderboardRange` returns the
`drop`/`take` slice of the on-chain `getLeaderboard` view — the contract's
stored insertion order, NOT the timestamp-descending leaderboard
projection; it is empty when `start` is at or beyond the data length, and
is clamped to the available remainder when `start + count` overruns. -/
theorem leaderboard_range_slices_full_projection
    (s : ContractState) (startIndex count : Nat)
    (hAll : ∀ p ∈ s.players, (s.playerScores p).exists_ = true) :
    (getLeaderboardRange s startIndex count).1
      = ((getLeaderboard s).1.drop startIndex).take count ∧
    (getLeaderboardRange s startIndex count).2.2
      = ((getLeaderboard s).2.drop startIndex).take count ∧
    (s.players.length ≤ startIndex → getLeaderboardRange s startIndex count = ([], [], [])) ∧
    (startIndex < s.players.length →
      (getLeaderboardRange s startIndex count).1.length
        = min count (s.players.length - startIndex)) := by
  have hfilter : s.players.filter (fun p => (s.playerScores p).exists_) = s.players :=
    List.filter_eq_self.mpr fun p hp => hAll p hp
  have hfull1 : (getLeaderboard s).1 = s.players := by
    simp [getLeaderboard, hfilter]
  have hfull2 : (getLeaderboard s).2 = s.players.map fun p => (s.playerScores p).timestamp := by
    simp [getLeaderboard, hfilter]
  have htake : ∀ l : List Principal,
      (l.drop startIndex).take (min count (l.length - startIndex))
        = (l.drop startIndex).take count := by
    intro l
    rw [List.take_eq_take]
    simp [List.length_drop]
  rcases Nat.lt_or_ge startIndex s.players.length with hlt | hge
  · have hnot : ¬ s.players.length ≤ startIndex := Nat.not_le.mpr hlt
    have hsel : ((if s.players.length < startIndex + count then s.players.length
          else startIndex + count) - startIndex) = min count (s.players.length - startIndex) := by
      split <;> omega
    refine ⟨?_, ?_, fun hc => absurd hc hnot, fun _ => ?_⟩
    · simp only [getLeaderboardRange, hnot, if_false, hfull1, hsel, htake]
    · simp only [getLeaderboardRange, hnot, if_false, hfull2, hsel, htake,
        ← List.map_drop, ← List.map_take]
    · simp only [getLeaderboardRange, hnot, if_false, hsel, htake, List.length_take,
        List.length_drop]
  · have hyes : s.players.length ≤ startIndex := hge
    have hdrop : s.players.drop startIndex = [] := List.drop_eq_nil_of_le hyes
    refine ⟨?_, ?_, fun _ => ?_, fun hc => absurd hc (Nat.not_lt.mpr hge)⟩
    · simp [getLeaderboardRange, hyes, hfull1, hdrop]
    · simp [getLeaderboardRange, hyes, hfull2, ← List.map_drop, hdrop]
    · simp [getLeaderboardRange, hyes]

/-- Witness for C6 at `sampleState` with `start = 1`, `count = 5`. -/
theorem leaderboard_range_slices_full_projection_witness :
    (getLeaderboardRange sampleState 1 5).1
      = ((getLeaderboard sampleState).1.drop 1).take 5 ∧
    (getLeaderboardRange sampleState 1 5).2.2
      = ((getLeaderboard sampleState).2.drop 1).take 5 ∧
    (sampleState.players.length ≤ 1 → getLeaderboardRange sampleState 1 5 = ([], [], [])) ∧
    (1 < sampleState.players.length →
      (getLeaderboardRange sampleState 1 5).1.length
        = min 5 (sampleState.players.length - 1)) :=
  leaderboard_range_slices_full_projection sampleState 1 5 (by decide)

theorem submitAux_grants_self (s : ContractState) (sender : Principal) (v ts : Nat) :
    (((submitAux s sender v ts).playerScores sender).encryptedScore.id, Grantee.contract)
      ∈ (submitAux s sender v ts).grants ∧
    (((submitAux s sender v ts).playerScores sender).encryptedScore.id, Grantee.user sender)
      ∈ (submitAux s sender v ts).grants ∧
    ((submitAux s sender v ts).maxEncryptedScore.id, Grantee.contract)
      ∈ (submitAux s sender v ts).grants := by
  simp only [submitAux]
  split
  · split <;> simp
  · simp

theorem submitAux_grants_mono (s : ContractState) (sender : Principal) (v ts : Nat)
    (x : Nat × Grantee) (hx : x ∈ s.grants) :
    x ∈ (submitAux s sender v ts).grants := by
  simp only [submitAux]
  split
  · split <;> simp [List.mem_append, hx]
  · simp [List.mem_append, hx]

theorem submitAux_exists_self (s : ContractState) (sender : Principal) (v ts : Nat) :
    ((submitAux s sender v ts).playerScores sender).exists_ = true := by
  rcases Bool.eq_false_or_eq_true (s.playerScores sender).exists_ with h | h
  · rw [submitAux_playerScores_repeat s sender v ts h]
  · rw [submitAux_playerScores_first s sender v ts h]

theorem I4inv_submitAux (s : ContractState) (sender : Principal) (v ts : Nat)
    (h : I4inv s) : I4inv (submitAux s sender v ts) := by
  obtain ⟨hrec, -⟩ := h
  obtain ⟨g1, g2, g3⟩ := submitAux_grants_self s sender v ts
  refine ⟨?_, fun _ => g3⟩
  intro p hp
  rcases Decidable.em (p = sender) with rfl | hne
  · exact ⟨g1, g2⟩
  · rw [submitAux_playerScores_ne s sender p v ts hne] at hp ⊢
    obtain ⟨m1, m2⟩ := hrec p hp
    exact ⟨submitAux_grants_mono s sender v ts _ m1, submitAux_grants_mono s sender v ts _ m2⟩

theorem I4inv_applyTx (s : ContractState) (tx : Tx) (h : I4inv s) : I4inv (applyTx s tx) := by
  cases tx with
  | mint p =>
    obtain ⟨h1, h2⟩ := h
    exact ⟨h1, h2⟩
  | submit p v ts =>
    rcases Decidable.em ((s.ownerTokens p).length = 0) with he | he
    · simp [applyTx, submitScore, he]
      exact h
    · simp [applyTx, submitScore, he]
      exact I4inv_submitAux s p v ts h

theorem I4inv_foldl (txs : List Tx) :
    ∀ s : ContractState, I4inv s → I4inv (txs.foldl applyTx s) := by
  induction txs with
  | nil => intro s h; exact h
  | cons tx rest ih => intro s h; exact ih (applyTx s tx) (I4inv_applyTx s tx h)

theorem I4inv_init : I4inv ContractState.init := by
  constructor
  · intro p h
    simp [ContractState.init, PlayerScore.default] at h
  · intro h
    simp [ContractState.init] at h

/-- C8: after every successful `submitScore` the submitting principal's
stored ciphertext carries grants for the co-processor and for the
submitter, the `MaxState` ciphertext carries a grant for the co-processor,
and invariant I4 holds of every state reachable by transactions, before
and after the submission. -/
theorem successful_submit_grants_invariant
    (txs : List Tx) (p : Principal) (v ts : Nat) (s2 : ContractState)
    (hok : submitScore (run txs) p v ts = Except.ok s2) :
    I4inv (run txs) ∧
    ((s2.playerScores p).encryptedScore.id, Grantee.contract) ∈ s2.grants ∧
    ((s2.playerScores p).encryptedScore.id, Grantee.user p) ∈ s2.grants ∧
    (s2.maxEncryptedScore.id, Grantee.contract) ∈ s2.grants ∧
    (s2.playerScores p).exists_ = true ∧
    I4inv s2 := by
  have hbase : I4inv (run txs) := I4inv_foldl txs ContractState.init I4inv_init
  have hs2 : s2 = submitAux (run txs) p v ts := by
    revert hok
    simp only [submitScore]
    split
    · intro hc; cases hc
    · intro hc; cases hc; rfl
  subst hs2
  obtain ⟨g1, g2, g3⟩ := submitAux_grants_self (run txs) p v ts
  exact ⟨hbase, g1, g2, g3, submitAux_exists_self (run txs) p v ts,
    I4inv_submitAux (run txs) p v ts hbase⟩

/-- Witness for C8: principal 0 mints then submits 5. -/
theorem successful_submit_grants_invariant_witness :
    I4inv (run [Tx.mint 0]) ∧
    (((run [Tx.mint 0, Tx.submit 0 5 1]).playerScores 0).encryptedScore.id, Grantee.contract)
      ∈ (run [Tx.mint 0, Tx.submit 0 5 1]).grants ∧
    (((run [Tx.mint 0, Tx.submit 0 5 1]).playerScores 0).encryptedScore.id, Grantee.user 0)
      ∈ (run [Tx.mint 0, Tx.submit 0 5 1]).grants ∧
    ((run [Tx.mint 0, Tx.submit 0 5 1]).maxEncryptedScore.id, Grantee.contract)
      ∈ (run [Tx.mint 0, Tx.submit 0 5 1]).grants ∧
    ((run [Tx.mint 0, Tx.submit 0 5 1]).playerScores 0).exists_ = true ∧
    I4inv (run [Tx.mint 0, Tx.submit 0 5 1]) :=
  successful_submit_grants_invariant [Tx.mint 0] 0 5 1
    (run [Tx.mint 0, Tx.submit 0 5 1]) rfl

/-- C3: a principal with no eligibility-registry membership (no character
token) always fails with `NotEligible`, and the reverted transaction leaves
the whole contract state (`ScoreRecord`s, players list, `MaxState`, grants)
unchanged. -/
theorem submit_notEligible_reverts (s : ContractState) (p : Principal) (v ts : Nat)
    (h : s.ownerTokens p = []) :
    submitScore s p v ts = Except.error SubmitError.notEligible ∧
    applyTx s (Tx.submit p v ts) = s := by
  constructor
  · simp [submitScore, h]
  · simp [applyTx, submitScore, h]

/-- Witness for C3 at the freshly deployed contract and principal 3. -/
theorem submit_notEligible_reverts_witness :
    submitScore ContractState.init 3 7 1 = Except.error SubmitError.notEligible ∧
    applyTx ContractState.init (Tx.submit 3 7 1) = ContractState.init :=
  submit_notEligible_reverts ContractState.init 3 7 1 rfl

/-- C7 (amended): a decryption request whose fetched record exists and
whose ciphertext handle is the all-zero sentinel short-circuits to
plaintext `0` with no decryption-oracle call, whatever the signature,
staleness, or oracle behaviour.  (Without the record-exists restriction the
claim fails: see the counterexample below.) -/
theorem zero_handle_returns_zero_without_oracle
    (recExists sigOk : Bool) (snapshot c1 c2 : Ctx) (oracle : Nat → Nat)
    (hex : recExists = true) :
    decryptScoreRun 0 recExists sigOk snapshot c1 c2 oracle
      = ⟨false, some 0, "Score: 0"⟩ := by
  subst hex
  rfl

/-- Witness for C7 with a stale context and a nonzero oracle. -/
theorem zero_handle_returns_zero_without_oracle_witness :
    decryptScoreRun 0 true true ⟨1, 1, 1⟩ ⟨1, 1, 1⟩ ⟨2, 2, 2⟩ (fun _ => 42)
      = ⟨false, some 0, "Score: 0"⟩ :=
  zero_handle_returns_zero_without_oracle true true ⟨1, 1, 1⟩ ⟨1, 1, 1⟩ ⟨2, 2, 2⟩
    (fun _ => 42) rfl

/-- C7 counterexample: the realizable zero-handle request — a player who
never submitted, so `getPlayerScore` returns the zero handle with
`exists = false` — reports that no score was found and does not return
plaintext `0`; the original unconditional claim is therefore false (the
no-oracle-call half does still hold on this path). -/
theorem zero_handle_no_record_returns_no_score :
    decryptScoreRun 0 false true ⟨1, 1, 1⟩ ⟨1, 1, 1⟩ ⟨1, 1, 1⟩ (fun _ => 42)
      = ⟨false, none, "No score found for this player"⟩ ∧
    (decryptScoreRun 0 false true ⟨1, 1, 1⟩ ⟨1, 1, 1⟩ ⟨1, 1, 1⟩
        (fun _ => 42)).playerScore ≠ some 0 :=
  ⟨rfl, by decide⟩

/-- C6 counterexample: at the reachable state `sampleState` the full
leaderboard projection (timestamp descending, spec 4.4) orders the players
`[2, 1, 0]`, while `getLeaderboardRange 0 2` returns `[0, 1]` — the stored
insertion order — so the ranged view is not a slice of the projection's
ordering and the original claim is false. -/
theorem leaderboard_range_not_projection_slice :
    (getLeaderboardRange sampleState 0 2).1 = [0, 1] ∧
    ((projectSpec sampleState).map Prod.fst).take 2 = [2, 1] ∧
    (getLeaderboardRange sampleState 0 2).1
      ≠ ((projectSpec sampleState).map Prod.fst).take 2 := by
  refine ⟨by decide, by decide, by decide⟩

/-- C4: if the staleness snapshot is stale at the pre-oracle check, no
oracle call is made; if it is fresh there but stale at the post-oracle
check, the oracle result is discarded, `playerScore` is not updated, and
the run reports the non-fatal message of the ignored outcome rather than an
error. -/
theorem staleness_guard_discards_result
    (handle : Nat) (recExists sigOk : Bool) (snapshot c1 c2 : Ctx) (oracle : Nat → Nat) :
    (isStale snapshot c1 = true →
      (decryptScoreRun handle recExists sigOk snapshot c1 c2 oracle).oracleCalled = false) ∧
    (recExists = true → handle ≠ 0 → sigOk = true →
      isStale snapshot c1 = false → isStale snapshot c2 = true →
      decryptScoreRun handle recExists sigOk snapshot c1 c2 oracle
        = ⟨true, none, "Ignore decryption"⟩) := by
  constructor
  · intro h1
    simp [decryptScoreRun, h1, apply_ite DecryptOutcome.oracleCalled]
  · intro he hh hs h1 h2
    simp [decryptScoreRun, he, hh, hs, h1, h2]

/-- Witness for C4: stale-before-oracle and stale-after-oracle scenarios at
concrete contexts. -/
theorem staleness_guard_discards_result_witness :
    (decryptScoreRun 7 true true ⟨1, 1, 1⟩ ⟨1, 1, 2⟩ ⟨1, 1, 1⟩ (fun _ => 42)).oracleCalled
        = false ∧
    decryptScoreRun 7 true true ⟨1, 1, 1⟩ ⟨1, 1, 1⟩ ⟨1, 2, 1⟩ (fun _ => 42)
      = ⟨true, none, "Ignore decryption"⟩ :=
  ⟨(staleness_guard_discards_result 7 true true ⟨1, 1, 1⟩ ⟨1, 1, 2⟩ ⟨1, 1, 1⟩
      (fun _ => 42)).1 (by decide),
   (staleness_guard_discards_result 7 true true ⟨1, 1, 1⟩ ⟨1, 1, 1⟩ ⟨1, 2, 1⟩
      (fun _ => 42)).2 rfl (by decide) rfl (by decide) (by decide)⟩

/-- C9: with a decryption (resp. submission) outstanding, a second call to
`decryptScore` (resp. `submitScore`) returns immediately without doing
anything — it is not queued and not an error — while a call with the guard
clear and all prerequisites present does run. -/
theorem concurrency_guard_single_outstanding
    (hasCharacter : Bool) (handle : Nat) (recExists sigOk : Bool)
    (snapshot c1 c2 : Ctx) (oracle : Nat → Nat)
    (hasAddress hasInstance hasSigner : Bool) :
    decryptScoreHook true hasAddress hasInstance hasSigner handle recExists sigOk
        snapshot c1 c2 oracle = HookOutcome.skipped ∧
    submitScoreHook true hasAddress hasInstance hasSigner hasCharacter snapshot c1
      = HookOutcome.skipped ∧
    decryptScoreHook false true true true handle recExists sigOk snapshot c1 c2 oracle
      = HookOutcome.ran (decryptScoreRun handle recExists sigOk snapshot c1 c2 oracle) ∧
    submitScoreHook false true true true hasCharacter snapshot c1 ≠ HookOutcome.skipped := by
  refine ⟨rfl, rfl, rfl, ?_⟩
  simp only [submitScoreHook]
  split
  · next hc => simp at hc
  · split
    · exact fun hc => HookOutcome.noConfusion hc
    · split
      · exact fun hc => HookOutcome.noConfusion hc
      · exact fun hc => HookOutcome.noConfusion hc

theorem mem_insertByTsDesc (e x : LeaderboardEntry) (l : List LeaderboardEntry) :
    x ∈ insertByTsDesc e l ↔ x = e ∨ x ∈ l := by
  induction l with
  | nil => simp [insertByTsDesc]
  | cons f rest ih =>
    simp only [insertByTsDesc]
    split
    · simp [List.mem_cons]
    · simp only [List.mem_cons, ih]
      tauto

theorem insertByTsDesc_pairwise (e : LeaderboardEntry) (l : List LeaderboardEntry)
    (h : List.Pairwise (fun a b => b.timestamp ≤ a.timestamp) l) :
    List.Pairwise (fun a b => b.timestamp ≤ a.timestamp) (insertByTsDesc e l) := by
  induction l with
  | nil => simp [insertByTsDesc]
  | cons f rest ih =>
    rcases List.pairwise_cons.mp h with ⟨hf, hr⟩
    simp only [insertByTsDesc]
    split
    · next hle =>
      refine List.pairwise_cons.mpr ⟨?_, h⟩
      intro x hx
      rcases List.mem_cons.mp hx with rfl | hx2
      · exact hle
      · exact Nat.le_trans (hf x hx2) hle
    · next hgt =>
      refine List.pairwise_cons.mpr ⟨?_, ih hr⟩
      intro x hx
      rcases (mem_insertByTsDesc e x rest).mp hx with rfl | hx2
      · exact Nat.le_of_lt (Nat.lt_of_not_le hgt)
      · exact hf x hx2

theorem sortByTsDesc_pairwise (l : List LeaderboardEntry) :
    List.Pairwise (fun a b => b.timestamp ≤ a.timestamp) (sortByTsDesc l) := by
  induction l with
  | nil => simp [sortByTsDesc]
  | cons e rest ih => exact insertByTsDesc_pairwise e (sortByTsDesc rest) ih

theorem insertByTsDesc_filter (e : LeaderboardEntry) (l : List LeaderboardEntry) (t : Nat) :
    (insertByTsDesc e l).filter (fun f => f.timestamp == t)
      = if e.timestamp = t
        then e :: l.filter (fun f => f.timestamp == t)
        else l.filter (fun f => f.timestamp == t) := by
  induction l with
  | nil =>
    by_cases he : e.timestamp = t <;> simp [insertByTsDesc, List.filter_cons, he]
  | cons f rest ih =>
    simp only [insertByTsDesc]
    split
    · simp only [List.filter_cons]
      by_cases he : e.timestamp = t <;> simp [he]
    · next hgt =>
      simp only [List.filter_cons, ih]
      by_cases hf : f.timestamp = t
      · by_cases he : e.timestamp = t
        · exact absurd (Nat.le_of_eq (hf.trans he.symm)) hgt
        · simp [hf, he]
      · by_cases he : e.timestamp = t <;> simp [hf, he]

theorem sortByTsDesc_filter (l : List LeaderboardEntry) (t : Nat) :
    (sortByTsDesc l).filter (fun f => f.timestamp == t)
      = l.filter (fun f => f.timestamp == t) := by
  induction l with
  | nil => rfl
  | cons e rest ih =>
    simp only [sortByTsDesc, insertByTsDesc_filter, ih, List.filter_cons]
    by_cases he : e.timestamp = t <;> simp [he]

theorem insertByTsDesc_map_pair (e : LeaderboardEntry) (l : List LeaderboardEntry) :
    (insertByTsDesc e l).map (fun f => (f.address, f.timestamp))
      = insertPairByTsDesc (e.address, e.timestamp)
          (l.map fun f => (f.address, f.timestamp)) := by
  induction l with
  | nil => rfl
  | cons f rest ih =>
    simp only [insertByTsDesc, List.map_cons, insertPairByTsDesc]
    split
    · rfl
    · simp only [List.map_cons, ih]

theorem sortByTsDesc_map_pair (l : List LeaderboardEntry) :
    (sortByTsDesc l).map (fun f => (f.address, f.timestamp))
      = sortPairsByTsDesc (l.map fun f => (f.address, f.timestamp)) := by
  induction l with
  | nil => rfl
  | cons e rest ih =>
    simp only [sortByTsDesc, List.map_cons, sortPairsByTsDesc, insertByTsDesc_map_pair, ih]

theorem addRanks_map_pair (l : List LeaderboardEntry) :
    ∀ n : Nat, (addRanks n l).map (fun r => (r.address, r.timestamp))
      = l.map fun e => (e.address, e.timestamp) := by
  induction l with
  | nil => intro n; rfl
  | cons e rest ih => intro n; simp only [addRanks, List.map_cons, ih]

theorem addRanks_filter_addr (l : List LeaderboardEntry) (t : Nat) :
    ∀ n : Nat, ((addRanks n l).filter (fun r => r.timestamp == t)).map (fun r => r.address)
      = (l.filter (fun e => e.timestamp == t)).map fun e => e.address := by
  induction l with
  | nil => intro n; rfl
  | cons e rest ih =>
    intro n
    simp only [addRanks, List.filter_cons]
    by_cases he : e.timestamp = t <;> simp [he, ih]

theorem addRanks_map_rank (l : List LeaderboardEntry) :
    ∀ n : Nat, (addRanks n l).map (fun r => r.rank) = List.range' n l.length := by
  induction l with
  | nil => intro n; rfl
  | cons e rest ih =>
    intro n
    simp only [addRanks, List.map_cons, List.length_cons, ih, List.range'_succ]

theorem addRanks_length (l : List LeaderboardEntry) :
    ∀ n : Nat, (addRanks n l).length = l.length := by
  induction l with
  | nil => intro n; rfl
  | cons e rest ih => intro n; simp only [addRanks, List.length_cons, ih]

theorem mem_addRanks_ts (l : List LeaderboardEntry) :
    ∀ n : Nat, ∀ x ∈ addRanks n l, ∃ e ∈ l, x.timestamp = e.timestamp := by
  induction l with
  | nil => intro n x hx; cases hx
  | cons e rest ih =>
    intro n x hx
    rcases List.mem_cons.mp hx with rfl | hx2
    · exact ⟨e, List.mem_cons_self e rest, rfl⟩
    · obtain ⟨f, hf, hts⟩ := ih (n + 1) x hx2
      exact ⟨f, List.mem_cons_of_mem e hf, hts⟩

theorem addRanks_pairwise (l : List LeaderboardEntry)
    (h : List.Pairwise (fun a b => b.timestamp ≤ a.timestamp) l) :
    ∀ n : Nat, List.Pairwise (fun a b : RankedEntry => b.timestamp ≤ a.timestamp)
      (addRanks n l) := by
  induction l with
  | nil => intro n; simp [addRanks]
  | cons e rest ih =>
    intro n
    rcases List.pairwise_cons.mp h with ⟨he, hr⟩
    refine List.pairwise_cons.mpr ⟨?_, ih hr (n + 1)⟩
    intro x hx
    obtain ⟨f, hf, hts⟩ := mem_addRanks_ts rest (n + 1) x hx
    rw [hts]
    exact he f hf

theorem filterMap_eq_map_of_forall {α β : Type} (c : α → Prop) [DecidablePred c]
    (f : α → β) (l : List α) (h : ∀ a ∈ l, ¬ c a) :
    (l.filterMap fun a => if c a then none else some (f a)) = l.map f := by
  induction l with
  | nil => rfl
  | cons x xs ih =>
    rw [List.filterMap_cons, List.map_cons]
    rw [if_neg (h x (List.mem_cons_self x xs))]
    rw [ih fun a ha => h a (List.mem_cons_of_mem x ha)]

/-- The entry list the hook builds equals mapping over exactly the `exists`
records, once every live record has a nonzero handle. -/
theorem fetchLeaderboard_entries (s : ContractState)
    (hNZ : ∀ p ∈ s.players, (s.playerScores p).exists_ = true →
      (s.playerScores p).encryptedScore.id ≠ 0) :
    (((getLeaderboard s).1.filter fun p => (getPlayerScore s p).2.2).filterMap fun p =>
        if (getPlayerScore s p).1.id = 0 then none
        else some (⟨p, (getPlayerScore s p).1.id, (getPlayerScore s p).2.1⟩ : LeaderboardEntry))
      = (s.players.filter fun p => (s.playerScores p).exists_).map
          fun p => ⟨p, (s.playerScores p).encryptedScore.id, (s.playerScores p).timestamp⟩ := by
  have h1 : ((getLeaderboard s).1.filter fun p => (getPlayerScore s p).2.2)
      = s.players.filter fun p => (s.playerScores p).exists_ := by
    simp [getLeaderboard, getPlayerScore, List.filter_filter]
  rw [h1]
  exact filterMap_eq_map_of_forall (fun p => (getPlayerScore s p).1.id = 0) _ _
    fun p hp => hNZ p (List.mem_filter.mp hp).1
      (by simpa using (List.mem_filter.mp hp).2)

/-- C5: once every live record has a nonzero handle (true of all reachable
ledger states), the hook's leaderboard projection returns exactly the
records with `exists = true`, ordered by `submittedAt` descending with ties
in stable input order, carrying ranks `1, 2, …`; the order is the spec-side
projection's, which never consults score values. -/
theorem leaderboard_projection_matches_spec (s : ContractState)
    (hNZ : ∀ p ∈ s.players, (s.playerScores p).exists_ = true →
      (s.playerScores p).encryptedScore.id ≠ 0) :
    ((fetchLeaderboard s).map fun r => (r.address, r.timestamp)) = projectSpec s ∧
    List.Pairwise (fun a b : RankedEntry => b.timestamp ≤ a.timestamp) (fetchLeaderboard s) ∧
    (∀ t : Nat, (((fetchLeaderboard s).filter fun r => r.timestamp == t).map fun r => r.address)
      = (s.players.filter fun p => (s.playerScores p).exists_).filter
          fun p => (s.playerScores p).timestamp == t) ∧
    ((fetchLeaderboard s).map fun r => r.rank) = List.range' 1 (fetchLeaderboard s).length := by
  have hfetch : fetchLeaderboard s
      = addRanks 1 (sortByTsDesc ((s.players.filter fun p => (s.playerScores p).exists_).map
          fun p => ⟨p, (s.playerScores p).encryptedScore.id, (s.playerScores p).timestamp⟩)) := by
    simp only [fetchLeaderboard]
    rw [fetchLeaderboard_entries s hNZ]
  refine ⟨?_, ?_, ?_, ?_⟩
  · rw [hfetch, addRanks_map_pair, sortByTsDesc_map_pair, List.map_map, projectSpec]
    rfl
  · rw [hfetch]
    exact addRanks_pairwise _ (sortByTsDesc_pairwise _) 1
  · intro t
    rw [hfetch, addRanks_filter_addr, sortByTsDesc_filter]
    rw [List.filter_map, List.map_map]
    have h2 : ((s.players.filter fun p => (s.playerScores p).exists_).filter
          ((fun f : LeaderboardEntry => f.timestamp == t) ∘ fun p =>
            (⟨p, (s.playerScores p).encryptedScore.id,
              (s.playerScores p).timestamp⟩ : LeaderboardEntry))).map
          ((fun e : LeaderboardEntry => e.address) ∘ fun p =>
            (⟨p, (s.playerScores p).encryptedScore.id,
              (s.playerScores p).timestamp⟩ : LeaderboardEntry))
        = ((s.players.filter fun p => (s.playerScores p).exists_).filter
            fun p => (s.playerScores p).timestamp == t).map id := rfl
    rw [h2, List.map_id]
  · rw [hfetch, addRanks_map_rank, addRanks_length]

/-- Witness for C5 at `sampleState` (three players, distinct timestamps). -/
theorem leaderboard_projection_matches_spec_witness :
    ((fetchLeaderboard sampleState).map fun r => (r.address, r.timestamp))
        = projectSpec sampleState ∧
    List.Pairwise (fun a b : RankedEntry => b.timestamp ≤ a.timestamp)
      (fetchLeaderboard sampleState) ∧
    (∀ t : Nat,
      (((fetchLeaderboard sampleState).filter fun r => r.timestamp == t).map fun r => r.address)
        = (sampleState.players.filter fun p => (sampleState.playerScores p).exists_).filter
            fun p => (sampleState.playerScores p).timestamp == t) ∧
    ((fetchLeaderboard sampleState).map fun r => r.rank)
      = List.range' 1 (fetchLeaderboard sampleState).length :=
  leaderboard_projection_matches_spec sampleState (by decide)

end Parkour
